import Mathlib

/-!
Shallow embedding of the marketing-dashboard computation pipeline
(`src/marketing_dashboard_app.py` and `src/marketing_dashboard_enhanced.py`).

Conventions of the embedding:

* Dates are integers (a day number); `pd.date_range(d0, d1)` becomes the
  list of days `d0, d0+1, …, d1`.
* Numeric table cells are exact rationals `ℚ`.  The only places where the
  pipeline can produce IEEE special values are the elementwise divisions
  (`roas`, `ctr`, `cpc`, `rev_share`) and the correlation coefficient;
  those results are modelled by `PFloat` (finite / NaN / ±infinity),
  respectively by `Option ℚ` for the correlation (where `none` is NaN).
* A pandas dataframe becomes a list of row structures, in row order.
  `groupby` aggregation becomes: list of distinct keys, each mapped to the
  sum of its fiber.  (pandas sorts group keys; none of the properties
  proved below depends on the order of the aggregated rows, so the
  first-occurrence order of `List.dedup` is used.)
* Pearson correlation (`np.corrcoef`) involves a square root, so its value
  is irrational in general.  The embedding `corrcoefSS` records the
  coefficient in the signed-square scale: for series of nonzero variance
  it returns `c * |c|` where `c` is the Pearson coefficient
  (`cov x y * |cov x y| / (svar x * svar y)` equals
  `(cov/(σx σy)) * |cov/(σx σy)|` because the normalisations cancel).
  The map `c ↦ c * |c|` is strictly monotone, so maxima, argmaxima,
  tie order and definedness — everything the best-lag search and the
  reported maximum depend on — are preserved exactly.  Zero variance
  (where NumPy produces NaN) is `none`.
-/

namespace MarketingDashboard

/-- Values of the pandas float columns produced by elementwise division:
an exact finite rational or one of the IEEE special values. -/
inductive PFloat where
  | nan : PFloat
  | inf : PFloat
  | ninf : PFloat
  | fin : ℚ → PFloat
deriving DecidableEq, Repr

/-- IEEE division of two finite values, as numpy/pandas perform it
elementwise: `a / 0` is `NaN` for `a = 0` and `±∞` for `a ≷ 0`;
otherwise the exact quotient.  Division never raises an error. -/
def pdiv (a b : ℚ) : PFloat :=
  if b = 0 then (if 0 < a then .inf else if a < 0 then .ninf else .nan)
  else .fin (a / b)

/-- Multiplication of a pandas float by a finite value (IEEE semantics:
`NaN * q = NaN`, `±∞ * 0 = NaN`, `±∞ * q = ±∞` by the sign of `q`). -/
def PFloat.mulFin : PFloat → ℚ → PFloat
  | .fin a, q => .fin (a * q)
  | .nan, _ => .nan
  | .inf, q => if 0 < q then .inf else if q < 0 then .ninf else .nan
  | .ninf, q => if 0 < q then .ninf else if q < 0 then .inf else .nan

/-- `Series.fillna(0)` on a single cell: NaN becomes `0`, everything else
(including infinities) is kept. -/
def PFloat.fillna0 : PFloat → PFloat
  | .nan => .fin 0
  | x => x

/-- The underlying rational of a finite pandas float (`0` on the special
values; only used where finiteness has been established). -/
def PFloat.toRat : PFloat → ℚ
  | .fin q => q
  | _ => 0

/-- Whether a pandas float is finite (neither NaN nor ±∞).  This is the
row-survival predicate of `replace([np.inf, -np.inf], np.nan).dropna()`. -/
def PFloat.isFin : PFloat → Bool
  | .fin _ => true
  | _ => false

/-- One row of the marketing-events table `marketing_cleaned_raw.csv`:
`(date, channel, campaign, state)` with the numeric fields. -/
structure MktRow where
  date : Int
  channel : String
  campaign : String
  state : String
  impressions : ℚ
  clicks : ℚ
  spend : ℚ
  attributed_revenue : ℚ
deriving DecidableEq, Repr

/-- One row of the daily business table `daily_merged_business_marketing.csv`:
a date plus a valuation of the named numeric columns. -/
structure BizRow where
  date : Int
  vals : String → ℚ

/-- The daily business table: its column names and its rows. -/
structure BizTable where
  cols : List String
  rows : List BizRow

/-- The Filter Stage on the marketing table
(`mkt_f = marketing[(date >= start) & (date <= end) & channel.isin(selected)]`
followed by `if state_filter.strip(): mkt_f = mkt_f[mkt_f['state'] == state_filter.strip()]`,
identical in both source files). -/
def mkt_f (marketing : List MktRow) (d0 d1 : Int) (selected : List String)
    (stateFilter : String) : List MktRow :=
  let base := marketing.filter fun r =>
    decide (d0 ≤ r.date) && decide (r.date ≤ d1) && selected.contains r.channel
  if stateFilter.trim ≠ "" then base.filter (fun r => r.state == stateFilter.trim)
  else base

/-- The Filter Stage on the daily business table
(`dm = daily_merged[(date >= start) & (date <= end)]`): date window only. -/
def dmFilter (dm : BizTable) (d0 d1 : Int) : BizTable :=
  ⟨dm.cols, dm.rows.filter fun r => decide (d0 ≤ r.date) && decide (r.date ≤ d1)⟩

/-- The distinct channels of a marketing table, i.e. the group keys of
`mkt_f.groupby('channel')`. -/
def channelsOf (m : List MktRow) : List String :=
  (m.map (·.channel)).dedup

/-- One aggregated column of `mkt_f.groupby('channel').agg(...)`: the sum
of the field `f` over the rows of channel `ch`. -/
def chanSum (m : List MktRow) (f : MktRow → ℚ) (ch : String) : ℚ :=
  ((m.filter fun r => r.channel == ch).map f).sum

/-- The `roas` column of the per-channel KPI table:
`channel_table['attributed_revenue'] / channel_table['spend']`
(elementwise pandas division). -/
def channelRoas (m : List MktRow) (ch : String) : PFloat :=
  pdiv (chanSum m (·.attributed_revenue) ch) (chanSum m (·.spend) ch)

/-! ### Top campaigns by ROAS (`marketing_dashboard_app.py`, `camp` / `top_camp`) -/

/-- One row of the `(channel, campaign)` aggregation `camp`. -/
structure CampRow where
  channel : String
  campaign : String
  spend : ℚ
  attributed_revenue : ℚ
  impressions : ℚ
  clicks : ℚ
  roas : PFloat
deriving DecidableEq, Repr

/-- The distinct `(channel, campaign)` keys of the marketing table, i.e.
the group keys of `mkt_f.groupby(['channel','campaign'])`. -/
def campKeys (m : List MktRow) : List (String × String) :=
  (m.map fun r => (r.channel, r.campaign)).dedup

/-- One aggregated column of the `(channel, campaign)` aggregation: the
sum of the field `f` over the rows of the given key. -/
def campSum (m : List MktRow) (f : MktRow → ℚ) (k : String × String) : ℚ :=
  ((m.filter fun r => r.channel == k.1 && r.campaign == k.2).map f).sum

/-- The aggregated campaign table
`camp = mkt_f.groupby(['channel','campaign']).agg(...)` together with
`camp['roas'] = camp['attributed_revenue'] / camp['spend']`. -/
def camp (m : List MktRow) : List CampRow :=
  (campKeys m).map fun k =>
    { channel := k.1, campaign := k.2
      spend := campSum m (·.spend) k
      attributed_revenue := campSum m (·.attributed_revenue) k
      impressions := campSum m (·.impressions) k
      clicks := campSum m (·.clicks) k
      roas := pdiv (campSum m (·.attributed_revenue) k) (campSum m (·.spend) k) }

/-- The rows surviving `camp.replace([np.inf, -np.inf], np.nan).dropna(subset=['roas'])`:
exactly those whose `roas` is finite. -/
def campFinite (m : List MktRow) : List CampRow :=
  (camp m).filter fun r => r.roas.isFin

/-! ### Rolling 7-day averages (`marketing_dashboard_enhanced.py`, Overview page) -/

/-- `Series.rolling(7, min_periods=1).mean()`: the value at position `i`
is the mean of the `min 7 (i+1)` most recent observations. -/
def rolling7 (l : List ℚ) : List ℚ :=
  (List.range l.length).map fun i =>
    (((l.take (i + 1)).drop (i + 1 - 7)).sum) / (((l.take (i + 1)).drop (i + 1 - 7)).length : ℚ)

/-- The distinct dates of the daily business table, ascending — the index
of `dm.groupby('date')` (pandas sorts the group keys). -/
def bizDates (dm : BizTable) : List Int :=
  List.insertionSort (· ≤ ·) ((dm.rows.map (·.date)).dedup)

/-- `rev_ts = dm[['date','total_revenue']].groupby('date').sum()`: the
daily business-revenue series, in date order. -/
def rev_ts (dm : BizTable) : List ℚ :=
  (bizDates dm).map fun d =>
    ((dm.rows.filter fun r => r.date == d).map fun r => r.vals "total_revenue").sum

/-- `rev_ts['rev_7d'] = rev_ts['total_revenue'].rolling(7, min_periods=1).mean()`. -/
def rev_7d (dm : BizTable) : List ℚ :=
  rolling7 (rev_ts dm)

/-- The distinct dates of the filtered marketing table, ascending — the
index of `ts_spend.groupby('date')`. -/
def mktDates (m : List MktRow) : List Int :=
  List.insertionSort (· ≤ ·) ((m.map (·.date)).dedup)

/-- `spend_total = ts_spend.groupby('date').spend.sum()`: the daily total
ad-spend series, in date order. -/
def spend_total (m : List MktRow) : List ℚ :=
  (mktDates m).map fun d =>
    ((m.filter fun r => r.date == d).map (·.spend)).sum

/-- `spend_total['spend_7d'] = spend_total['total_spend'].rolling(7, min_periods=1).mean()`. -/
def spend_7d (m : List MktRow) : List ℚ :=
  rolling7 (spend_total m)

/-! ### Proportional acquisition attribution
(`marketing_dashboard_enhanced.py`, Cohort & Acquisition page) -/

/-- The distinct `(date, channel)` keys of
`rev_by_ch = mkt.groupby(['date','channel']).attributed_revenue.sum()`. -/
def ckeys (m : List MktRow) : List (Int × String) :=
  (m.map fun r => (r.date, r.channel)).dedup

/-- The summed `attributed_revenue` of one `(date, channel)` group. -/
def pairRev (m : List MktRow) (k : Int × String) : ℚ :=
  ((m.filter fun r => r.date == k.1 && r.channel == k.2).map (·.attributed_revenue)).sum

/-- `total_rev_by_date = rev_by_ch.groupby('date').attributed_revenue.sum()`:
the total attributed revenue of a date across all channels present that
day (the value left-joined onto each `merged` row of that date). -/
def totalRevAt (m : List MktRow) (d : Int) : ℚ :=
  (((ckeys m).filter fun k => k.1 == d).map (pairRev m)).sum

/-- The `new_customers` value joined onto a date by
`merged.merge(cust, on='date', how='left').fillna(0)`: the value of the
(unique) business row of that date, and `0` when the date is absent. -/
def ncAt (dm : BizTable) (d : Int) : ℚ :=
  match dm.rows.find? (fun r => r.date == d) with
  | some r => r.vals "new_customers"
  | none => 0

/-- One row of the final `merged` dataframe of the attribution model. -/
structure AttribRow where
  date : Int
  channel : String
  attributed_revenue : ℚ
  total_rev : ℚ
  rev_share : PFloat
  new_customers : ℚ
  new_customers_attrib : PFloat
deriving Repr

/-- One row of the attribution model `merged` for the `(date, channel)`
key `k`: `rev_share = attributed_revenue / total_rev` (pandas division),
the `fillna(0)` applied after the `cust` merge (which turns a NaN share
into `0`), and `new_customers_attrib = rev_share * new_customers`. -/
def attribRow (m : List MktRow) (dm : BizTable) (k : Int × String) : AttribRow :=
  { date := k.1, channel := k.2
    attributed_revenue := pairRev m k
    total_rev := totalRevAt m k.1
    rev_share := (pdiv (pairRev m k) (totalRevAt m k.1)).fillna0
    new_customers := ncAt dm k.1
    new_customers_attrib :=
      ((pdiv (pairRev m k) (totalRevAt m k.1)).fillna0).mulFin (ncAt dm k.1) }

/-- The attribution model `merged`: one row per `(date, channel)` group of
the filtered marketing table. -/
def attribution (m : List MktRow) (dm : BizTable) : List AttribRow :=
  (ckeys m).map (attribRow m dm)

/-! ### Lag / cross-correlation diagnostic
(`marketing_dashboard_enhanced.py`, Diagnostics & Lag Analysis page) -/

/-- Whether a needle occurs at the head of a haystack (character lists). -/
def leadEq : List Char → List Char → Bool
  | [], _ => true
  | _ :: _, [] => false
  | a :: as, b :: bs => a == b && leadEq as bs

/-- Whether a needle occurs as a contiguous substring of a haystack. -/
def hasSub (needle : List Char) : List Char → Bool
  | [] => leadEq needle []
  | h :: t => leadEq needle (h :: t) || hasSub needle t

/-- The column-name test `'order' in c.lower() or 'orders' in c.lower()`. -/
def isOrderCol (c : String) : Bool :=
  hasSub "order".toList c.toLower.toList || hasSub "orders".toList c.toLower.toList

/-- `order_cols = [c for c in dm.columns if 'order' in c.lower() or 'orders' in c.lower()]`. -/
def order_cols (dm : BizTable) : List String :=
  dm.cols.filter isOrderCol

/-- The `orders` value of one calendar day after
`orders.set_index('date').reindex(pd.date_range(start, end), fill_value=0)`:
the first order-like column's value on the (unique) business row of that
date; `0` when the date is absent from the table or when no order-like
column exists (`orders['orders'] = 0`). -/
def ordersValOf (dm : BizTable) (d : Int) : ℚ :=
  match order_cols dm with
  | c :: _ =>
    match dm.rows.find? (fun r => r.date == d) with
    | some r => r.vals c
    | none => 0
  | [] => 0

/-- The number of days of `pd.date_range(d0, d1)`. -/
def nDays (d0 d1 : Int) : ℕ :=
  (d1 - d0 + 1).toNat

/-- `srs = mkt[mkt['channel'] == ch].groupby('date').spend.sum()
.reindex(pd.date_range(start_date, end_date), fill_value=0)`: the
channel's daily spend over every calendar day of the window, missing
days filled with `0`. -/
def spendSeries (m : List MktRow) (ch : String) (d0 : Int) (n : ℕ) : List ℚ :=
  (List.range n).map fun (i : ℕ) =>
    ((m.filter fun r => r.channel == ch && r.date == d0 + (i : Int)).map (·.spend)).sum

/-- The `orders` series reindexed over every calendar day of the window. -/
def ordersSeries (dm : BizTable) (d0 : Int) (n : ℕ) : List ℚ :=
  (List.range n).map fun (i : ℕ) => ordersValOf dm (d0 + (i : Int))

/-- `Series.shift(k).fillna(0)` for `k ≥ 0`: each value moves `k` places
towards the end, the `k` positions opened at the start become `0`. -/
def shiftFill (k : ℕ) (l : List ℚ) : List ℚ :=
  (List.range l.length).map fun i => if i < k then 0 else l.getD (i - k) 0

/-- The mean of a series (`0` for the empty series, as `0 / 0 = 0` in `ℚ`). -/
def seriesMean (l : List ℚ) : ℚ :=
  l.sum / (l.length : ℚ)

/-- The centered second moment `Σ (xᵢ - x̄)²` (an `n`-multiple of the
variance; the constant cancels in the correlation). -/
def svar (x : List ℚ) : ℚ :=
  (x.map fun a => (a - seriesMean x) ^ 2).sum

/-- The centered cross moment `Σ (xᵢ - x̄)(yᵢ - ȳ)`. -/
def scov (x y : List ℚ) : ℚ :=
  ((x.zip y).map fun p => (p.1 - seriesMean x) * (p.2 - seriesMean y)).sum

/-- `np.corrcoef(x, y)[0,1]` in the signed-square scale (see the header
comment): `none` exactly when a series has zero variance, which is when
NumPy produces NaN; otherwise `c * |c|` where `c` is the Pearson
coefficient — the strictly monotone image of the coefficient, preserving
order, maxima and ties. -/
def corrcoefSS (x y : List ℚ) : Option ℚ :=
  if svar x = 0 ∨ svar y = 0 then none
  else some (scov x y * |scov x y| / (svar x * svar y))

/-- `lags = list(range(-max_lag, max_lag+1))`. -/
def lagList (L : ℕ) : List Int :=
  (List.range (2 * L + 1)).map fun (j : ℕ) => (j : Int) - (L : Int)

/-- The `cors` list of one channel: for each lag `ℓ` from `-L` to `L`,
`np.corrcoef(srs.shift(-lag).fillna(0), ords.fillna(0))[0,1]` when
`ℓ < 0` and `np.corrcoef(srs.fillna(0), ords.shift(lag).fillna(0))[0,1]`
otherwise (the reindexed series carry no NaN, so their `fillna(0)` is
the identity; the shift's boundary NaNs become `0`). -/
def corsOf (m : List MktRow) (dm : BizTable) (ch : String) (d0 d1 : Int) (L : ℕ) :
    List (Option ℚ) :=
  let n := nDays d0 d1
  let srs := spendSeries m ch d0 n
  let ords := ordersSeries dm d0 n
  (lagList L).map fun lag =>
    if lag < 0 then corrcoefSS (shiftFill (-lag).toNat srs) ords
    else corrcoefSS srs (shiftFill lag.toNat ords)

/-- The maximum of a list of rationals (`none` on the empty list). -/
def lmax : List ℚ → Option ℚ
  | [] => none
  | a :: l =>
    match lmax l with
    | none => some a
    | some b => some (max a b)

/-- `np.nan_to_num(cors, nan=-999)`: NaN entries become the sentinel `-999`. -/
def nanToNum (l : List (Option ℚ)) : List ℚ :=
  l.map fun o => o.getD (-999)

/-- `np.argmax`: the first index attaining the maximum (`0` on the empty
list, which never arises: `cors` has `2L+1 ≥ 1` entries). -/
def argmaxIdx (l : List ℚ) : ℕ :=
  l.findIdx fun v => lmax l == some v

/-- `np.nanmax`: the maximum of the non-NaN entries, NaN when there is none. -/
def nanmax (l : List (Option ℚ)) : Option ℚ :=
  lmax (l.filterMap id)

/-- `best_lag = lags[np.nanargmax(np.nan_to_num(cors, nan=-999))]`. -/
def best_lag (m : List MktRow) (dm : BizTable) (ch : String) (d0 d1 : Int) (L : ℕ) : Int :=
  (lagList L).getD (argmaxIdx (nanToNum (corsOf m dm ch d0 d1 L))) 0

/-- `max_corr = np.nanmax(cors)` (in the signed-square scale). -/
def max_corr (m : List MktRow) (dm : BizTable) (ch : String) (d0 d1 : Int) (L : ℕ) :
    Option ℚ :=
  nanmax (corsOf m dm ch d0 d1 L)

/-- One row of the diagnostic's `results` table. -/
structure LagResult where
  channel : String
  best_lag_days : Int
  o_max_corr : Option ℚ
deriving DecidableEq, Repr

/-- The `results` table: one row per selected channel. -/
def lagResults (m : List MktRow) (dm : BizTable) (selected : List String)
    (d0 d1 : Int) (L : ℕ) : List LagResult :=
  selected.map fun ch => ⟨ch, best_lag m dm ch d0 d1 L, max_corr m dm ch d0 d1 L⟩

/-- The per-lag correlation as §4.4 of the specification words it — the
second definition of the refinement comparison, built from the spec's
sentences: two daily series reindexed over every calendar day of
`[d0, d1]` with missing days as `0`; for `ℓ < 0` the spend series
shifted by `|ℓ|` days against the unshifted orders series, for `ℓ ≥ 0`
the unshifted spend series against the orders series shifted by `ℓ`
days; the boundary values introduced by the shift treated as zero;
Pearson correlation (signed-square scale), NaN on zero variance. -/
def corsSpec (m : List MktRow) (dm : BizTable) (ch : String) (d0 d1 : Int) (L : ℕ) :
    List (Option ℚ) :=
  (lagList L).map fun lag =>
    let n := nDays d0 d1
    let spend := (List.range n).map fun (i : ℕ) =>
      ((m.filter fun r => r.channel == ch && r.date == d0 + (i : Int)).map (·.spend)).sum
    let ords := (List.range n).map fun (i : ℕ) => ordersValOf dm (d0 + (i : Int))
    if lag < 0 then corrcoefSS (shiftFill lag.natAbs spend) ords
    else corrcoefSS spend (shiftFill lag.toNat ords)

/-! ### Concrete tables used to instantiate the proved properties -/

/-- Three days of spend for one channel, used by the lag diagnostic. -/
def mkt1 : List MktRow :=
  [⟨0, "a", "c", "s", 0, 0, 1, 0⟩, ⟨1, "a", "c", "s", 0, 0, 2, 0⟩,
   ⟨2, "a", "c", "s", 0, 0, 3, 0⟩]

/-- Three days of orders, used by the lag diagnostic. -/
def biz1 : BizTable :=
  ⟨["orders"], [⟨0, fun _ => 1⟩, ⟨1, fun _ => 2⟩, ⟨2, fun _ => 3⟩]⟩

/-- A channel with zero total spend and positive attributed revenue. -/
def mkt4 : List MktRow := [⟨0, "a", "c", "s", 0, 0, 0, 5⟩]

/-- One day, two channels with positive total revenue. -/
def mkt6 : List MktRow :=
  [⟨0, "a", "c", "s", 0, 0, 1, 5⟩, ⟨0, "b", "c", "s", 0, 0, 1, 15⟩]

/-- A business row carrying `new_customers = 3` on day `0`. -/
def row6 : BizRow := ⟨0, fun _ => 3⟩

/-- A business table with the single row `row6`. -/
def biz6 : BizTable := ⟨["new_customers"], [row6]⟩

/-- One day, two channels whose revenues cancel to a zero total. -/
def mkt7 : List MktRow :=
  [⟨0, "a", "c", "s", 0, 0, 0, 5⟩, ⟨0, "b", "c", "s", 0, 0, 0, -5⟩]

/-- One day, two channels with zero revenue each. -/
def mkt7z : List MktRow :=
  [⟨0, "a", "c", "s", 0, 0, 1, 0⟩, ⟨0, "b", "c", "s", 0, 0, 1, 0⟩]

/-- A business table with no order-like column. -/
def biz10 : BizTable := ⟨["total_revenue"], [⟨0, fun _ => 1⟩, ⟨1, fun _ => 5⟩]⟩

/-! ### Helper lemmas -/

theorem list_sum_div (l : List ℚ) (c : ℚ) : (l.map (· / c)).sum = l.sum / c := by
  induction l with
  | nil => simp
  | cons a t ih => simp [ih, add_div]

theorem list_sum_mul (l : List ℚ) (c : ℚ) : (l.map (· * c)).sum = l.sum * c := by
  induction l with
  | nil => simp
  | cons a t ih => simp [ih, add_mul]

theorem sum_zero_of_nonneg {l : List ℚ} (hnn : ∀ x ∈ l, 0 ≤ x) (h0 : l.sum = 0) :
    ∀ x ∈ l, x = 0 := by
  induction l with
  | nil => simp
  | cons a t ih =>
    have ha : 0 ≤ a := hnn a (by simp)
    have ht : ∀ x ∈ t, 0 ≤ x := fun x hx => hnn x (by simp [hx])
    have hts : 0 ≤ t.sum := List.sum_nonneg ht
    have hsum : a + t.sum = 0 := by simpa using h0
    have ha0 : a = 0 := le_antisymm (by linarith) ha
    have ht0 : t.sum = 0 := by linarith
    intro x hx
    rcases List.mem_cons.mp hx with h | h
    · rw [h, ha0]
    · exact ih ht ht0 x h

theorem map_sum_range (F : ℚ → ℚ) :
    ∀ l : List ℚ, (l.map F).sum = ∑ i ∈ Finset.range l.length, F (l.getD i 0)
  | [] => by simp
  | a :: t => by
    rw [List.map_cons, List.sum_cons, map_sum_range F t, List.length_cons,
      Finset.sum_range_succ']
    simp [add_comm]

theorem zip_sum_range (F : ℚ → ℚ → ℚ) :
    ∀ x y : List ℚ, ((x.zip y).map fun p => F p.1 p.2).sum =
      ∑ i ∈ Finset.range (min x.length y.length), F (x.getD i 0) (y.getD i 0)
  | [], _ => by simp
  | _ :: _, [] => by simp
  | a :: t, b :: u => by
    rw [List.zip_cons_cons, List.map_cons, List.sum_cons, zip_sum_range F t u]
    have hmin : min (a :: t).length (b :: u).length = min t.length u.length + 1 := by
      simp [Nat.succ_min_succ]
    rw [hmin, Finset.sum_range_succ']
    simp [add_comm]

theorem lmax_cons (a : ℚ) (l : List ℚ) :
    lmax (a :: l) =
      match lmax l with
      | none => some a
      | some b => some (max a b) := rfl

theorem lmax_ne_none : ∀ l : List ℚ, l ≠ [] → ∃ b, lmax l = some b
  | [], h => absurd rfl h
  | a :: t, _ => by
    cases ht : lmax t with
    | none => exact ⟨a, by simp [lmax, ht]⟩
    | some b => exact ⟨max a b, by simp [lmax, ht]⟩

theorem le_lmax {a b : ℚ} : ∀ {l : List ℚ}, a ∈ l → lmax l = some b → a ≤ b
  | [], h, _ => absurd h (List.not_mem_nil a)
  | c :: t, hmem, hmax => by
    rcases List.mem_cons.mp hmem with h | h
    · cases ht : lmax t with
      | none =>
        simp only [lmax, ht] at hmax
        cases hmax
        exact le_of_eq h
      | some m =>
        simp only [lmax, ht] at hmax
        cases hmax
        exact h ▸ le_max_left c m
    · cases ht : lmax t with
      | none =>
        cases t with
        | nil => exact absurd h (List.not_mem_nil a)
        | cons c' t' =>
          obtain ⟨b', hb'⟩ := lmax_ne_none (c' :: t') (by simp)
          exact absurd (hb'.symm.trans ht) (by simp)
      | some m =>
        simp only [lmax, ht] at hmax
        cases hmax
        exact le_trans (le_lmax h ht) (le_max_right c m)

theorem lmax_mem : ∀ {l : List ℚ} {b : ℚ}, lmax l = some b → b ∈ l
  | [], _, h => by simp [lmax] at h
  | c :: t, b, h => by
    cases ht : lmax t with
    | none =>
      simp only [lmax, ht] at h
      cases h
      exact List.mem_cons_self c t
    | some m =>
      simp only [lmax, ht] at h
      cases h
      rcases max_choice c m with hm | hm
      · rw [hm]; exact List.mem_cons_self c t
      · rw [hm]; exact List.mem_cons_of_mem c (lmax_mem ht)

theorem lmax_eq_some {l : List ℚ} {c : ℚ} (hc : c ∈ l) (hall : ∀ a ∈ l, a ≤ c) :
    lmax l = some c := by
  obtain ⟨b, hb⟩ := lmax_ne_none l (List.ne_nil_of_mem hc)
  have h1 : b ≤ c := hall b (lmax_mem hb)
  have h2 : c ≤ b := le_lmax hc hb
  rw [hb, le_antisymm h1 h2]

theorem svar_nonneg (x : List ℚ) : 0 ≤ svar x := by
  refine List.sum_nonneg ?_
  intro q hq
  rw [List.mem_map] at hq
  obtain ⟨a, -, rfl⟩ := hq
  exact sq_nonneg _

theorem scov_sq_le (x y : List ℚ) : scov x y ^ 2 ≤ svar x * svar y := by
  have hx : svar x = ∑ i ∈ Finset.range x.length, (x.getD i 0 - seriesMean x) ^ 2 :=
    map_sum_range _ x
  have hy : svar y = ∑ i ∈ Finset.range y.length, (y.getD i 0 - seriesMean y) ^ 2 :=
    map_sum_range _ y
  have hc : scov x y = ∑ i ∈ Finset.range (min x.length y.length),
      (x.getD i 0 - seriesMean x) * (y.getD i 0 - seriesMean y) := by
    simpa [scov] using
      zip_sum_range (fun a b => (a - seriesMean x) * (b - seriesMean y)) x y
  have cs := Finset.sum_mul_sq_le_sq_mul_sq (Finset.range (min x.length y.length))
    (fun i => x.getD i 0 - seriesMean x) (fun i => y.getD i 0 - seriesMean y)
  have h1 : ∑ i ∈ Finset.range (min x.length y.length), (x.getD i 0 - seriesMean x) ^ 2
      ≤ svar x := by
    rw [hx]
    exact Finset.sum_le_sum_of_subset_of_nonneg
      (Finset.range_subset.mpr (Nat.min_le_left _ _)) (fun i _ _ => sq_nonneg _)
  have h2 : ∑ i ∈ Finset.range (min x.length y.length), (y.getD i 0 - seriesMean y) ^ 2
      ≤ svar y := by
    rw [hy]
    exact Finset.sum_le_sum_of_subset_of_nonneg
      (Finset.range_subset.mpr (Nat.min_le_right _ _)) (fun i _ _ => sq_nonneg _)
  have hnn : 0 ≤ ∑ i ∈ Finset.range (min x.length y.length),
      (y.getD i 0 - seriesMean y) ^ 2 := Finset.sum_nonneg fun i _ => sq_nonneg _
  calc scov x y ^ 2
      = (∑ i ∈ Finset.range (min x.length y.length),
          (x.getD i 0 - seriesMean x) * (y.getD i 0 - seriesMean y)) ^ 2 := by rw [hc]
    _ ≤ (∑ i ∈ Finset.range (min x.length y.length), (x.getD i 0 - seriesMean x) ^ 2) *
        ∑ i ∈ Finset.range (min x.length y.length), (y.getD i 0 - seriesMean y) ^ 2 := cs
    _ ≤ svar x * svar y := mul_le_mul h1 h2 hnn (svar_nonneg x)

theorem corrcoefSS_bounds {x y : List ℚ} {q : ℚ} (h : corrcoefSS x y = some q) :
    -1 ≤ q ∧ q ≤ 1 := by
  unfold corrcoefSS at h
  by_cases hz : svar x = 0 ∨ svar y = 0
  · simp [hz] at h
  · rw [if_neg hz] at h
    push_neg at hz
    have hx : 0 < svar x := lt_of_le_of_ne (svar_nonneg x) (Ne.symm hz.1)
    have hy : 0 < svar y := lt_of_le_of_ne (svar_nonneg y) (Ne.symm hz.2)
    have hq : q = scov x y * |scov x y| / (svar x * svar y) := by
      cases h; rfl
    have habs : |q| ≤ 1 := by
      rw [hq, abs_div, abs_mul, abs_abs, abs_of_pos (mul_pos hx hy),
        div_le_one (mul_pos hx hy)]
      calc |scov x y| * |scov x y| = scov x y ^ 2 := by
            rw [abs_mul_abs_self]; ring
      _ ≤ svar x * svar y := scov_sq_le x y
    exact abs_le.mp habs

theorem sum_ite_single {keys : List String} {c : String} (hnd : keys.Nodup)
    (hc : c ∈ keys) (v : ℚ) :
    (keys.map fun k => if c == k then v else 0).sum = v := by
  induction keys with
  | nil => simp at hc
  | cons k t ih =>
    rcases List.mem_cons.mp hc with h | h
    · subst h
      have hnotin : c ∉ t := (List.nodup_cons.mp hnd).1
      have hz : (t.map fun k => if c == k then v else 0).sum = 0 := by
        apply List.sum_eq_zero
        intro x hx
        rw [List.mem_map] at hx
        obtain ⟨a, ha, rfl⟩ := hx
        have hne : (c == a) = false := by
          apply beq_false_of_ne
          intro hca
          exact hnotin (hca ▸ ha)
        simp [hne]
      rw [List.map_cons, List.sum_cons, hz, add_zero]
      simp
    · have hkc : (c == k) = false := by
        apply beq_false_of_ne
        intro hck
        exact (List.nodup_cons.mp hnd).1 (hck ▸ h)
      rw [List.map_cons, List.sum_cons, hkc]
      simp only [Bool.false_eq_true, if_false, zero_add]
      exact ih (List.nodup_cons.mp hnd).2 h

theorem chanSum_partition (f : MktRow → ℚ) (m : List MktRow) :
    ∀ keys : List String, keys.Nodup → (∀ r ∈ m, r.channel ∈ keys) →
      (keys.map (chanSum m f)).sum = (m.map f).sum := by
  induction m with
  | nil =>
    intro keys _ _
    apply List.sum_eq_zero
    intro x hx
    rw [List.mem_map] at hx
    obtain ⟨k, -, rfl⟩ := hx
    rfl
  | cons r t ih =>
    intro keys hnd hcov
    have hstep : ∀ k, chanSum (r :: t) f k =
        (if r.channel == k then f r else 0) + chanSum t f k := by
      intro k
      by_cases h : r.channel == k
      · simp [chanSum, List.filter_cons, h]
      · simp [chanSum, List.filter_cons, h]
    calc (keys.map (chanSum (r :: t) f)).sum
        = (keys.map fun k => (if r.channel == k then f r else 0) + chanSum t f k).sum := by
          exact congrArg List.sum (List.map_congr_left fun k _ => hstep k)
      _ = (keys.map fun k => if r.channel == k then f r else 0).sum +
          (keys.map (chanSum t f)).sum := List.sum_map_add
      _ = f r + (t.map f).sum := by
          rw [sum_ite_single hnd (hcov r (by simp)) (f r),
            ih keys hnd fun x hx => hcov x (by simp [hx])]
      _ = ((r :: t).map f).sum := by simp

theorem svar_of_zero {l : List ℚ} (h : ∀ x ∈ l, x = 0) : svar l = 0 := by
  have hm : seriesMean l = 0 := by
    rw [seriesMean, List.sum_eq_zero h, zero_div]
  apply List.sum_eq_zero
  intro q hq
  rw [List.mem_map] at hq
  obtain ⟨a, ha, rfl⟩ := hq
  rw [h a ha, hm]
  ring

theorem shiftFill_zero {l : List ℚ} (h : ∀ x ∈ l, x = 0) (k : ℕ) :
    ∀ x ∈ shiftFill k l, x = 0 := by
  intro x hx
  rw [shiftFill, List.mem_map] at hx
  obtain ⟨i, -, rfl⟩ := hx
  by_cases hik : i < k
  · simp [hik]
  · rw [if_neg hik]
    by_cases hlen : i - k < l.length
    · exact h _ (List.getD_eq_getElem l 0 hlen ▸ List.getElem_mem hlen)
    · exact List.getD_eq_default l 0 (Nat.le_of_not_lt hlen)

theorem corrcoefSS_of_right_zero {x y : List ℚ} (h : ∀ a ∈ y, a = 0) :
    corrcoefSS x y = none := by
  rw [corrcoefSS, if_pos (Or.inr (svar_of_zero h))]

theorem lmax_replicate (n : ℕ) (c : ℚ) : lmax (List.replicate (n + 1) c) = some c := by
  induction n with
  | zero => simp [lmax]
  | succ k ih =>
    rw [List.replicate_succ, lmax_cons, ih]
    simp

theorem lagList_length (L : ℕ) : (lagList L).length = 2 * L + 1 := by
  unfold lagList
  rw [List.length_map, List.length_range]

theorem corsOf_length (m : List MktRow) (dm : BizTable) (ch : String) (d0 d1 : Int)
    (L : ℕ) : (corsOf m dm ch d0 d1 L).length = 2 * L + 1 := by
  show (List.map _ (lagList L)).length = 2 * L + 1
  rw [List.length_map, lagList_length]

theorem lagList_getD {L j : ℕ} (hj : j < 2 * L + 1) :
    (lagList L).getD j 0 = (j : Int) - L := by
  have hlen : j < (lagList L).length := by rw [lagList_length]; exact hj
  rw [List.getD_eq_getElem _ _ hlen]
  show ((List.range (2 * L + 1)).map fun (i : ℕ) => (i : Int) - (L : Int))[j] = (j : Int) - L
  rw [List.getElem_map, List.getElem_range]

theorem corsOf_bounds {m : List MktRow} {dm : BizTable} {ch : String} {d0 d1 : Int}
    {L : ℕ} {o : Option ℚ} (ho : o ∈ corsOf m dm ch d0 d1 L) {q : ℚ}
    (hq : o = some q) : -1 ≤ q ∧ q ≤ 1 := by
  subst hq
  rw [corsOf, List.mem_map] at ho
  obtain ⟨lag, -, hlag⟩ := ho
  by_cases h : lag < 0
  · rw [if_pos h] at hlag
    exact corrcoefSS_bounds hlag
  · rw [if_neg h] at hlag
    exact corrcoefSS_bounds hlag

/-! ### Claim theorems -/

/-- **C9**: for every filter window, the sum over all channels of the
`spend` column of the per-channel KPI table equals the total spend of the
filtered marketing table (additivity of the grouped sums). -/
theorem channel_spend_additivity (marketing : List MktRow) (d0 d1 : Int)
    (selected : List String) (stateFilter : String) :
    ((channelsOf (mkt_f marketing d0 d1 selected stateFilter)).map
      (chanSum (mkt_f marketing d0 d1 selected stateFilter) (·.spend))).sum =
    ((mkt_f marketing d0 d1 selected stateFilter).map (·.spend)).sum :=
  chanSum_partition _ _ _ (List.nodup_dedup _)
    fun r hr => List.mem_dedup.mpr (List.mem_map_of_mem _ hr)

/-- **C5**: the Filter Stage returns exactly the marketing rows whose date
lies in `[d0, d1]` (inclusive), whose channel is in the selected set and —
when the state string is non-empty after trimming — whose state equals the
trimmed string exactly and case-sensitively; the daily-business table is
restricted by the date interval only. -/
theorem filter_stage_exact (marketing : List MktRow) (dm : BizTable) (d0 d1 : Int)
    (selected : List String) (stateFilter : String)
    (hd : d0 ≤ d1) (hne : selected ≠ []) :
    mkt_f marketing d0 d1 selected stateFilter =
      (marketing.filter fun r =>
        decide (d0 ≤ r.date) && decide (r.date ≤ d1) && selected.contains r.channel &&
          (stateFilter.trim == "" || r.state == stateFilter.trim)) ∧
    (∀ r : MktRow, r ∈ mkt_f marketing d0 d1 selected stateFilter ↔
      r ∈ marketing ∧ d0 ≤ r.date ∧ r.date ≤ d1 ∧ r.channel ∈ selected ∧
        (stateFilter.trim ≠ "" → r.state = stateFilter.trim)) ∧
    (dmFilter dm d0 d1).rows =
      dm.rows.filter fun r => decide (d0 ≤ r.date) && decide (r.date ≤ d1) := by
  have h1 : mkt_f marketing d0 d1 selected stateFilter =
      marketing.filter fun r =>
        decide (d0 ≤ r.date) && decide (r.date ≤ d1) && selected.contains r.channel &&
          (stateFilter.trim == "" || r.state == stateFilter.trim) := by
    unfold mkt_f
    by_cases hs : stateFilter.trim = ""
    · rw [if_neg (not_not_intro hs)]
      apply List.filter_congr
      intro r _
      simp [hs]
    · rw [if_pos hs, List.filter_filter]
      apply List.filter_congr
      intro r _
      rw [beq_false_of_ne hs]
      simp [Bool.and_comm]
  refine ⟨h1, ?_, rfl⟩
  intro r
  rw [h1, List.mem_filter]
  simp only [Bool.and_eq_true, Bool.or_eq_true, decide_eq_true_eq, beq_iff_eq,
    List.contains, List.elem_iff]
  constructor
  · rintro ⟨hm, ⟨⟨⟨h0, h1'⟩, hc⟩, hst⟩⟩
    refine ⟨hm, h0, h1', hc, fun hne' => ?_⟩
    rcases hst with h | h
    · exact absurd h hne'
    · exact h
  · rintro ⟨hm, h0, h1', hc, hst⟩
    refine ⟨hm, ⟨⟨⟨h0, h1'⟩, hc⟩, ?_⟩⟩
    by_cases hs : stateFilter.trim = ""
    · exact Or.inl hs
    · exact Or.inr (hst hs)

/-- **C5 witness**: the Filter Stage contract instantiated on a concrete
window, channel set and empty state filter. -/
theorem filter_stage_exact_witness :
    ((0 : Int) ≤ 2 ∧ (["a"] : List String) ≠ []) ∧
    (mkt_f mkt1 0 2 ["a"] "" =
      (mkt1.filter fun r =>
        decide ((0 : Int) ≤ r.date) && decide (r.date ≤ (2 : Int)) &&
          (["a"] : List String).contains r.channel &&
          (("" : String).trim == "" || r.state == ("" : String).trim)) ∧
    (∀ r : MktRow, r ∈ mkt_f mkt1 0 2 ["a"] "" ↔
      r ∈ mkt1 ∧ (0 : Int) ≤ r.date ∧ r.date ≤ (2 : Int) ∧ r.channel ∈ (["a"] : List String) ∧
        (("" : String).trim ≠ "" → r.state = ("" : String).trim)) ∧
    (dmFilter biz1 0 2).rows =
      biz1.rows.filter fun r => decide ((0 : Int) ≤ r.date) && decide (r.date ≤ (2 : Int))) :=
  ⟨⟨by decide, by decide⟩, filter_stage_exact mkt1 biz1 0 2 ["a"] "" (by decide) (by decide)⟩

/-- **C4 counterexample**: in the per-channel KPI table built from a
channel with zero total spend and positive total attributed revenue, the
`roas` entry is `+∞`, not NaN — refuting the claim that every zero-spend
channel has NaN `roas`. -/
theorem channel_roas_zero_spend_cex :
    "a" ∈ channelsOf mkt4 ∧ chanSum mkt4 (·.spend) "a" = 0 ∧
    channelRoas mkt4 "a" = PFloat.inf ∧ channelRoas mkt4 "a" ≠ PFloat.nan := by
  with_unfolding_all decide

/-- **C4 (amended)**: in the per-channel KPI table, a channel with zero
total spend and zero total attributed revenue has `roas` NaN; with zero
spend and positive (negative) revenue the `roas` is `+∞` (`-∞`) rather
than NaN; a channel with nonzero total spend has `roas` exactly its total
attributed revenue divided by its total spend; division by zero never
raises an error (the division is total). -/
theorem channel_roas_spec (m : List MktRow) (ch : String)
    (hch : ch ∈ channelsOf m) :
    (chanSum m (·.spend) ch = 0 → chanSum m (·.attributed_revenue) ch = 0 →
      channelRoas m ch = PFloat.nan) ∧
    (chanSum m (·.spend) ch = 0 → 0 < chanSum m (·.attributed_revenue) ch →
      channelRoas m ch = PFloat.inf) ∧
    (chanSum m (·.spend) ch = 0 → chanSum m (·.attributed_revenue) ch < 0 →
      channelRoas m ch = PFloat.ninf) ∧
    (chanSum m (·.spend) ch ≠ 0 →
      channelRoas m ch =
        PFloat.fin (chanSum m (·.attributed_revenue) ch / chanSum m (·.spend) ch)) := by
  unfold channelRoas pdiv
  refine ⟨fun hs hr => ?_, fun hs hr => ?_, fun hs hr => ?_, fun hs => ?_⟩
  · simp [hs, hr]
  · simp [hs, hr]
  · rw [if_pos hs, if_neg (asymm hr), if_pos hr]
  · rw [if_neg hs]

/-- **C4 witness**: the amended `roas` case split instantiated on a
concrete channel of a concrete table. -/
theorem channel_roas_spec_witness :
    "a" ∈ channelsOf mkt1 ∧
    ((chanSum mkt1 (·.spend) "a" = 0 → chanSum mkt1 (·.attributed_revenue) "a" = 0 →
      channelRoas mkt1 "a" = PFloat.nan) ∧
    (chanSum mkt1 (·.spend) "a" = 0 → 0 < chanSum mkt1 (·.attributed_revenue) "a" →
      channelRoas mkt1 "a" = PFloat.inf) ∧
    (chanSum mkt1 (·.spend) "a" = 0 → chanSum mkt1 (·.attributed_revenue) "a" < 0 →
      channelRoas mkt1 "a" = PFloat.ninf) ∧
    (chanSum mkt1 (·.spend) "a" ≠ 0 →
      channelRoas mkt1 "a" =
        PFloat.fin (chanSum mkt1 (·.attributed_revenue) "a" / chanSum mkt1 (·.spend) "a"))) :=
  ⟨by decide, channel_roas_spec mkt1 "a" (by decide)⟩

theorem rolling7_spec (l : List ℚ) (i : ℕ) (hi : i < l.length) :
    (rolling7 l).length = l.length ∧
    ((l.take (i + 1)).drop (i + 1 - 7)).length = min 7 (i + 1) ∧
    (rolling7 l).getD i 0 =
      ((l.take (i + 1)).drop (i + 1 - 7)).sum / ((min 7 (i + 1) : ℕ) : ℚ) ∧
    (0 < l.length → (rolling7 l).getD 0 0 = l.getD 0 0) ∧
    (6 ≤ i → (l.take (i + 1)).drop (i + 1 - 7) = (l.drop (i - 6)).take 7) := by
  have hlen : (rolling7 l).length = l.length := by
    show ((List.range l.length).map _).length = l.length
    rw [List.length_map, List.length_range]
  have hwin : ((l.take (i + 1)).drop (i + 1 - 7)).length = min 7 (i + 1) := by
    rw [List.length_drop, List.length_take,
      Nat.min_eq_left (by omega : i + 1 ≤ l.length)]
    rcases Nat.le_total 7 (i + 1) with h7 | h7
    · rw [Nat.min_eq_left h7]; omega
    · rw [Nat.min_eq_right h7]; omega
  refine ⟨hlen, hwin, ?_, ?_, ?_⟩
  · have hi' : i < (rolling7 l).length := by rw [hlen]; exact hi
    have hr : i < (List.range l.length).length := by rw [List.length_range]; exact hi
    rw [List.getD_eq_getElem _ _ hi']
    show ((List.range l.length).map fun (j : ℕ) =>
      (((l.take (j + 1)).drop (j + 1 - 7)).sum) /
        (((l.take (j + 1)).drop (j + 1 - 7)).length : ℚ))[i] = _
    rw [List.getElem_map, List.getElem_range, hwin]
  · intro hpos
    match l, hpos with
    | a :: t, _ =>
      have h0 : (0 : ℕ) < (rolling7 (a :: t)).length := by
        rw [hlen]; exact List.length_pos_of_ne_nil (by simp)
      rw [List.getD_eq_getElem _ _ h0]
      show ((List.range (a :: t).length).map fun (j : ℕ) =>
        ((((a :: t).take (j + 1)).drop (j + 1 - 7)).sum) /
          ((((a :: t).take (j + 1)).drop (j + 1 - 7)).length : ℚ))[0] = _
      rw [List.getElem_map, List.getElem_range]
      simp
  · intro h6
    have h7 : i + 1 - 7 = i - 6 := by omega
    rw [h7, List.drop_take]
    congr 1
    omega

/-- **C8**: the 7-day trailing rolling average of daily revenue and of
daily total spend at day `i` is the mean of the `min 7 (i+1)` most recent
observations; at the first day it equals that day's raw value; from the
7th day on it is the mean of exactly 7 consecutive days; no undefined
values arise at the start of the series (the windows are nonempty and the
output is everywhere a finite rational). -/
theorem rolling_7day_claim (dm : BizTable) (m : List MktRow) (i j : ℕ)
    (hi : i < (rev_ts dm).length) (hj : j < (spend_total m).length) :
    ((rev_7d dm).length = (rev_ts dm).length ∧
    (((rev_ts dm).take (i + 1)).drop (i + 1 - 7)).length = min 7 (i + 1) ∧
    (rev_7d dm).getD i 0 =
      (((rev_ts dm).take (i + 1)).drop (i + 1 - 7)).sum / ((min 7 (i + 1) : ℕ) : ℚ) ∧
    (0 < (rev_ts dm).length → (rev_7d dm).getD 0 0 = (rev_ts dm).getD 0 0) ∧
    (6 ≤ i → ((rev_ts dm).take (i + 1)).drop (i + 1 - 7) =
      ((rev_ts dm).drop (i - 6)).take 7)) ∧
    ((spend_7d m).length = (spend_total m).length ∧
    (((spend_total m).take (j + 1)).drop (j + 1 - 7)).length = min 7 (j + 1) ∧
    (spend_7d m).getD j 0 =
      (((spend_total m).take (j + 1)).drop (j + 1 - 7)).sum / ((min 7 (j + 1) : ℕ) : ℚ) ∧
    (0 < (spend_total m).length → (spend_7d m).getD 0 0 = (spend_total m).getD 0 0) ∧
    (6 ≤ j → ((spend_total m).take (j + 1)).drop (j + 1 - 7) =
      ((spend_total m).drop (j - 6)).take 7)) :=
  ⟨rolling7_spec (rev_ts dm) i hi, rolling7_spec (spend_total m) j hj⟩

/-- **C8 witness**: the rolling-average property instantiated on concrete
three-day revenue and spend series. -/
theorem rolling_7day_claim_witness :
    ((0 : ℕ) < (rev_ts biz1).length ∧ (0 : ℕ) < (spend_total mkt1).length) ∧
    (((rev_7d biz1).length = (rev_ts biz1).length ∧
    (((rev_ts biz1).take (0 + 1)).drop (0 + 1 - 7)).length = min 7 (0 + 1) ∧
    (rev_7d biz1).getD 0 0 =
      (((rev_ts biz1).take (0 + 1)).drop (0 + 1 - 7)).sum / ((min 7 (0 + 1) : ℕ) : ℚ) ∧
    (0 < (rev_ts biz1).length → (rev_7d biz1).getD 0 0 = (rev_ts biz1).getD 0 0) ∧
    (6 ≤ 0 → ((rev_ts biz1).take (0 + 1)).drop (0 + 1 - 7) =
      ((rev_ts biz1).drop (0 - 6)).take 7)) ∧
    ((spend_7d mkt1).length = (spend_total mkt1).length ∧
    (((spend_total mkt1).take (0 + 1)).drop (0 + 1 - 7)).length = min 7 (0 + 1) ∧
    (spend_7d mkt1).getD 0 0 =
      (((spend_total mkt1).take (0 + 1)).drop (0 + 1 - 7)).sum / ((min 7 (0 + 1) : ℕ) : ℚ) ∧
    (0 < (spend_total mkt1).length → (spend_7d mkt1).getD 0 0 = (spend_total mkt1).getD 0 0) ∧
    (6 ≤ 0 → ((spend_total mkt1).take (0 + 1)).drop (0 + 1 - 7) =
      ((spend_total mkt1).drop (0 - 6)).take 7))) :=
  ⟨⟨by with_unfolding_all decide, by with_unfolding_all decide⟩,
    rolling_7day_claim biz1 mkt1 0 0 (by with_unfolding_all decide)
      (by with_unfolding_all decide)⟩

/-- **C2**: for every selected channel and every lag `ℓ` in `[-L, L]`, the
correlation recorded by the lag diagnostic at `ℓ` is the Pearson
coefficient (in the embedding's signed-square scale) between the
channel's daily spend series and the business orders series, both
reindexed over every calendar day of `[d0, d1]` with missing days as
zero, where for `ℓ < 0` the spend series is shifted by `|ℓ|` days against
the unshifted orders series and for `ℓ ≥ 0` the orders series is shifted
by `ℓ` days against the unshifted spend series, the boundary values
introduced by the shift being replaced by zero before correlating: the
diagnostic's `cors` list coincides with the list that §4.4 of the
specification describes. -/
theorem cors_refines_spec (m : List MktRow) (dm : BizTable) (ch : String)
    (d0 d1 : Int) (L : ℕ) :
    corsOf m dm ch d0 d1 L = corsSpec m dm ch d0 d1 L := by
  unfold corsOf corsSpec
  apply List.map_congr_left
  intro lag _
  by_cases h : lag < 0
  · simp only [if_pos h]
    have habs : (-lag).toNat = lag.natAbs := by omega
    rw [habs]
    rfl
  · simp only [if_neg h]
    rfl

/-- **C10**: when the daily business table has no column whose name
contains "order" (case-insensitively), the lag diagnostic uses an
all-zero orders series, every lag's correlation is NaN, and it still
produces one result row per selected channel without raising an error —
each row reporting best lag `-L` (the first lag in scan order) and a NaN
maximum correlation. -/
theorem lag_no_order_column (m : List MktRow) (dm : BizTable) (selected : List String)
    (d0 d1 : Int) (L : ℕ)
    (hnc : ∀ c ∈ dm.cols, isOrderCol c = false) :
    lagResults m dm selected d0 d1 L =
      selected.map fun ch => ⟨ch, -(L : Int), none⟩ := by
  have hocols : order_cols dm = [] := by
    rw [order_cols, List.filter_eq_nil_iff]
    intro c hc
    simp [hnc c hc]
  have hov : ∀ d : Int, ordersValOf dm d = 0 := by
    intro d
    rw [ordersValOf, hocols]
  have hos : ∀ n, ∀ x ∈ ordersSeries dm d0 n, x = 0 := by
    intro n x hx
    rw [ordersSeries, List.mem_map] at hx
    obtain ⟨i, -, rfl⟩ := hx
    exact hov _
  have hcors : ∀ ch, corsOf m dm ch d0 d1 L = List.replicate (2 * L + 1) none := by
    intro ch
    have h1 : corsOf m dm ch d0 d1 L = (lagList L).map fun _ => (none : Option ℚ) := by
      show (lagList L).map _ = _
      apply List.map_congr_left
      intro lag _
      by_cases h : lag < 0
      · simp only [if_pos h]
        exact corrcoefSS_of_right_zero (hos _)
      · simp only [if_neg h]
        exact corrcoefSS_of_right_zero (shiftFill_zero (hos _) _)
    rw [h1, List.map_const', lagList_length]
  unfold lagResults
  apply List.map_congr_left
  intro ch _
  have hlm : lmax (List.replicate (2 * L + 1) (-999 : ℚ)) = some (-999) :=
    lmax_replicate (2 * L) (-999)
  have hb : best_lag m dm ch d0 d1 L = -(L : Int) := by
    unfold best_lag
    rw [hcors ch]
    have hnn : nanToNum (List.replicate (2 * L + 1) (none : Option ℚ)) =
        List.replicate (2 * L + 1) (-999 : ℚ) := by
      rw [nanToNum, List.map_replicate]
      rfl
    rw [hnn]
    have harg : argmaxIdx (List.replicate (2 * L + 1) (-999 : ℚ)) = 0 := by
      unfold argmaxIdx
      simp only [hlm]
      rw [List.replicate_succ, List.findIdx_cons]
      simp
    rw [harg, lagList_getD (by omega)]
    simp
  have hm : max_corr m dm ch d0 d1 L = none := by
    unfold max_corr nanmax
    rw [hcors ch]
    simp [List.filterMap_replicate, lmax]
  rw [hb, hm]

/-- **C10 witness**: the diagnostic run on a business table whose columns
carry no order-like name. -/
theorem lag_no_order_column_witness :
    (∀ c ∈ biz10.cols, isOrderCol c = false) ∧
    lagResults mkt1 biz10 ["a", "b"] 0 2 1 =
      (["a", "b"].map fun ch => ⟨ch, -(1 : Int), none⟩) :=
  ⟨by with_unfolding_all decide,
    lag_no_order_column mkt1 biz10 ["a", "b"] 0 2 1 (by with_unfolding_all decide)⟩

theorem attribution_filter_date (m : List MktRow) (dm : BizTable) (d : Int) :
    (attribution m dm).filter (fun r => r.date == d) =
      ((ckeys m).filter fun k => k.1 == d).map (attribRow m dm) := by
  unfold attribution
  rw [List.filter_map]
  congr 1

/-- **C6**: for every date whose total attributed revenue across the
channels present that day is nonzero, the per-channel revenue shares of
the attribution model are the exact quotients and sum to `1` over the
channels active that date, and the per-channel attributed new-customer
values of that date sum to that date's `new_customers` value (exactly, in
the rational embedding). -/
theorem attribution_shares_claim (m : List MktRow) (dm : BizTable) (d : Int)
    (row : BizRow)
    (hnd : (dm.rows.map (·.date)).Nodup)
    (hrow : dm.rows.find? (fun r => r.date == d) = some row)
    (htot : totalRevAt m d ≠ 0) :
    (∀ r ∈ attribution m dm, r.date = d →
      r.rev_share = PFloat.fin (r.attributed_revenue / totalRevAt m d) ∧
      r.new_customers_attrib =
        PFloat.fin (r.attributed_revenue / totalRevAt m d * row.vals "new_customers")) ∧
    ((((attribution m dm).filter fun r => r.date == d).map
      fun r => r.rev_share.toRat).sum = 1) ∧
    ((((attribution m dm).filter fun r => r.date == d).map
      fun r => r.new_customers_attrib.toRat).sum = row.vals "new_customers") := by
  have hnc : ncAt dm d = row.vals "new_customers" := by
    rw [ncAt, hrow]
  have hshare : ∀ k : Int × String, k.1 = d →
      (attribRow m dm k).rev_share = PFloat.fin (pairRev m k / totalRevAt m d) := by
    intro k hk1
    show (pdiv (pairRev m k) (totalRevAt m k.1)).fillna0 = _
    rw [hk1]
    simp only [pdiv, if_neg htot, PFloat.fillna0]
  have hattr : ∀ k : Int × String, k.1 = d →
      (attribRow m dm k).new_customers_attrib =
        PFloat.fin (pairRev m k / totalRevAt m d * row.vals "new_customers") := by
    intro k hk1
    show ((pdiv (pairRev m k) (totalRevAt m k.1)).fillna0).mulFin (ncAt dm k.1) = _
    rw [hk1, hnc]
    simp only [pdiv, if_neg htot, PFloat.fillna0, PFloat.mulFin]
  refine ⟨?_, ?_, ?_⟩
  · intro r hr hrd
    rw [attribution, List.mem_map] at hr
    obtain ⟨k, hk, rfl⟩ := hr
    have hk1 : k.1 = d := hrd
    exact ⟨hshare k hk1, hattr k hk1⟩
  · rw [attribution_filter_date, List.map_map]
    have hmc : (((ckeys m).filter fun k => k.1 == d).map
          ((fun r => r.rev_share.toRat) ∘ attribRow m dm)) =
        ((((ckeys m).filter fun k => k.1 == d).map (pairRev m)).map
          (· / totalRevAt m d)) := by
      rw [List.map_map]
      apply List.map_congr_left
      intro k hk
      have hk1 : k.1 = d := by simpa using (List.mem_filter.mp hk).2
      show ((attribRow m dm k).rev_share).toRat = _
      rw [hshare k hk1]
      rfl
    rw [hmc, list_sum_div]
    exact div_self htot
  · rw [attribution_filter_date, List.map_map]
    have hmc : (((ckeys m).filter fun k => k.1 == d).map
          ((fun r => r.new_customers_attrib.toRat) ∘ attribRow m dm)) =
        (((((ckeys m).filter fun k => k.1 == d).map (pairRev m)).map
          (· / totalRevAt m d)).map (· * row.vals "new_customers")) := by
      rw [List.map_map, List.map_map]
      apply List.map_congr_left
      intro k hk
      have hk1 : k.1 = d := by simpa using (List.mem_filter.mp hk).2
      show ((attribRow m dm k).new_customers_attrib).toRat = _
      rw [hattr k hk1]
      rfl
    rw [hmc, list_sum_mul, list_sum_div]
    show totalRevAt m d / totalRevAt m d * row.vals "new_customers" = row.vals "new_customers"
    rw [div_self htot, one_mul]

/-- **C6 witness**: the attribution identities instantiated on one day
with two channels and a business row carrying `new_customers = 3`. -/
theorem attribution_shares_claim_witness :
    ((biz6.rows.map (·.date)).Nodup ∧
      biz6.rows.find? (fun r => r.date == (0 : Int)) = some row6 ∧
      totalRevAt mkt6 0 ≠ 0) ∧
    ((∀ r ∈ attribution mkt6 biz6, r.date = 0 →
      r.rev_share = PFloat.fin (r.attributed_revenue / totalRevAt mkt6 0) ∧
      r.new_customers_attrib =
        PFloat.fin (r.attributed_revenue / totalRevAt mkt6 0 * row6.vals "new_customers")) ∧
    ((((attribution mkt6 biz6).filter fun r => r.date == (0 : Int)).map
      fun r => r.rev_share.toRat).sum = 1) ∧
    ((((attribution mkt6 biz6).filter fun r => r.date == (0 : Int)).map
      fun r => r.new_customers_attrib.toRat).sum = row6.vals "new_customers")) :=
  ⟨⟨by decide, rfl, by with_unfolding_all decide⟩,
    attribution_shares_claim mkt6 biz6 0 row6 (by decide) rfl
      (by with_unfolding_all decide)⟩

/-- **C7 counterexample**: a date whose channel revenues cancel to a zero
total (one channel `+5`, one `-5`) produces a `+∞` share for the positive
channel — the share survives `fillna(0)` (it is not NaN) and the
attributed new-customer value is `+∞`, not zero, refuting the claim that
a zero revenue total always yields zero attributed customers for every
channel active that date. -/
theorem attribution_zero_total_cex :
    totalRevAt mkt7 0 = 0 ∧
    ∃ r ∈ attribution mkt7 biz6, r.date = 0 ∧
      r.new_customers_attrib ≠ PFloat.fin 0 := by
  with_unfolding_all decide

/-- **C7 (amended)**: for every date at which each marketing row's
attributed revenue is nonnegative (so each channel's summed revenue is
zero exactly when the date's total is zero) and the total attributed
revenue is zero, the attribution model gives every channel active that
date the NaN share propagated as zero: share `0` after `fillna(0)` and
zero attributed new customers; no error is raised (the computation is a
total function). -/
theorem attribution_zero_total_spec (m : List MktRow) (dm : BizTable) (d : Int)
    (htot : totalRevAt m d = 0)
    (hnn : ∀ r ∈ m, r.date = d → 0 ≤ r.attributed_revenue) :
    ∀ r ∈ attribution m dm, r.date = d →
      r.rev_share = PFloat.fin 0 ∧ r.new_customers_attrib = PFloat.fin 0 := by
  have hkey : ∀ k ∈ ckeys m, k.1 = d → pairRev m k = 0 := by
    intro k hk hkd
    have hmem : pairRev m k ∈ ((ckeys m).filter fun k' => k'.1 == d).map (pairRev m) :=
      List.mem_map_of_mem _ (List.mem_filter.mpr ⟨hk, by simp [hkd]⟩)
    have hnn' : ∀ x ∈ ((ckeys m).filter fun k' => k'.1 == d).map (pairRev m), 0 ≤ x := by
      intro x hx
      rw [List.mem_map] at hx
      obtain ⟨k', hk', rfl⟩ := hx
      apply List.sum_nonneg
      intro q hq
      rw [List.mem_map] at hq
      obtain ⟨r, hr, rfl⟩ := hq
      have hr' := List.mem_filter.mp hr
      have hk'd : k'.1 = d := by simpa using (List.mem_filter.mp hk').2
      have h2 := hr'.2
      simp only [Bool.and_eq_true, beq_iff_eq] at h2
      exact hnn r hr'.1 (h2.1.trans hk'd)
    exact sum_zero_of_nonneg hnn' htot _ hmem
  intro r hr hrd
  rw [attribution, List.mem_map] at hr
  obtain ⟨k, hk, rfl⟩ := hr
  have hk1 : k.1 = d := hrd
  have hp0 : pairRev m k = 0 := hkey k hk hk1
  constructor
  · show (pdiv (pairRev m k) (totalRevAt m k.1)).fillna0 = PFloat.fin 0
    rw [hp0, hk1, htot]
    simp [pdiv, PFloat.fillna0]
  · show ((pdiv (pairRev m k) (totalRevAt m k.1)).fillna0).mulFin (ncAt dm k.1) =
      PFloat.fin 0
    rw [hp0, hk1, htot]
    simp [pdiv, PFloat.fillna0, PFloat.mulFin]

/-- **C7 witness**: the amended zero-total behaviour instantiated on a
date whose two channels both have zero revenue. -/
theorem attribution_zero_total_spec_witness :
    (totalRevAt mkt7z 0 = 0 ∧ (∀ r ∈ mkt7z, r.date = 0 → 0 ≤ r.attributed_revenue)) ∧
    (∀ r ∈ attribution mkt7z biz6, r.date = 0 →
      r.rev_share = PFloat.fin 0 ∧ r.new_customers_attrib = PFloat.fin 0) :=
  ⟨⟨by with_unfolding_all decide, by with_unfolding_all decide⟩,
    attribution_zero_total_spec mkt7z biz6 0 (by with_unfolding_all decide)
      (by with_unfolding_all decide)⟩

theorem argmax_spec (l : List ℚ) (hne : l ≠ []) :
    ∃ mv, lmax l = some mv ∧ argmaxIdx l < l.length ∧
      l.getD (argmaxIdx l) 0 = mv ∧
      (∀ a ∈ l, a ≤ mv) ∧
      (∀ i < argmaxIdx l, l.getD i 0 < mv) := by
  obtain ⟨mv, hmv⟩ := lmax_ne_none l hne
  have hjlt : argmaxIdx l < l.length := by
    apply List.findIdx_lt_length_of_exists
    refine ⟨mv, lmax_mem hmv, ?_⟩
    rw [hmv]
    exact beq_self_eq_true _
  have hub : ∀ a ∈ l, a ≤ mv := fun a ha => le_lmax ha hmv
  have hval : l.getD (argmaxIdx l) 0 = mv := by
    have hpj := @List.findIdx_getElem _ (fun v => lmax l == some v) l hjlt
    have heq := beq_iff_eq.mp hpj
    have heq2 := Option.some_inj.mp (hmv.symm.trans heq)
    rw [List.getD_eq_getElem _ _ hjlt]
    exact heq2.symm
  have hlt : ∀ i < argmaxIdx l, l.getD i 0 < mv := by
    intro i hij
    have hil : i < l.length := lt_trans hij hjlt
    have hnp := List.not_of_lt_findIdx hij
    rw [List.getD_eq_getElem _ _ hil]
    refine lt_of_le_of_ne (hub _ (List.getElem_mem hil)) ?_
    intro he
    rw [he, hmv] at hnp
    simp at hnp
  exact ⟨mv, hmv, hjlt, hval, hub, hlt⟩

theorem nanToNum_getD {l : List (Option ℚ)} {i : ℕ} (hi : i < l.length) :
    (nanToNum l).getD i 0 = (l.getD i none).getD (-999) := by
  have hi' : i < (nanToNum l).length := by
    rw [nanToNum, List.length_map]
    exact hi
  rw [List.getD_eq_getElem _ _ hi', List.getD_eq_getElem _ _ hi]
  show (List.map (fun o => o.getD (-999)) l)[i] = _
  rw [List.getElem_map]

/-- **C1**: on every run of the lag diagnostic with `L ≤ 30` in which at
least one lag's correlation is defined, the reported best lag of a
channel is a lag in `[-L, L]` whose correlation is defined and maximal
among the defined (non-NaN) correlations — NaN entries are excluded from
the search through the `-999` sentinel, which is strictly below every
defined correlation (Pearson coefficients lie in `[-1, 1]`, by
Cauchy–Schwarz) rather than propagated; on ties the first lag in scan
order from `-L` to `L` wins (every earlier lag's defined correlation is
strictly smaller); and the reported maximum correlation `np.nanmax(cors)`
equals the correlation at the chosen lag. -/
theorem lag_best_defined (m : List MktRow) (dm : BizTable) (ch : String)
    (d0 d1 : Int) (L : ℕ) (hL : L ≤ 30)
    (hdef : ∃ o ∈ corsOf m dm ch d0 d1 L, o ≠ none) :
    ∃ (j : ℕ) (c : ℚ),
      j < 2 * L + 1 ∧
      best_lag m dm ch d0 d1 L = (j : Int) - L ∧
      -(L : Int) ≤ best_lag m dm ch d0 d1 L ∧
      best_lag m dm ch d0 d1 L ≤ (L : Int) ∧
      (corsOf m dm ch d0 d1 L).getD j none = some c ∧
      (∀ o ∈ corsOf m dm ch d0 d1 L, ∀ q : ℚ, o = some q → q ≤ c) ∧
      (∀ i : ℕ, i < j → ∀ q : ℚ,
        (corsOf m dm ch d0 d1 L).getD i none = some q → q < c) ∧
      max_corr m dm ch d0 d1 L = some c := by
  set cors := corsOf m dm ch d0 d1 L with hcorsdef
  set nl := nanToNum cors with hnldef
  have hclen : cors.length = 2 * L + 1 := corsOf_length m dm ch d0 d1 L
  have hnlen : nl.length = cors.length := by
    rw [hnldef, nanToNum, List.length_map]
  have hne : nl ≠ [] := by
    intro h
    rw [h] at hnlen
    rw [hclen] at hnlen
    simp at hnlen
  obtain ⟨mv, hmv, hjlt, hval, hub, hlt⟩ := argmax_spec nl hne
  have hjc : argmaxIdx nl < cors.length := by
    rw [← hnlen]
    exact hjlt
  have hjb : argmaxIdx nl < 2 * L + 1 := by
    rw [← hclen]
    exact hjc
  obtain ⟨o0, ho0m, ho0⟩ := hdef
  obtain ⟨q0, rfl⟩ := Option.ne_none_iff_exists'.mp ho0
  have hq0b : -1 ≤ q0 ∧ q0 ≤ 1 := corsOf_bounds ho0m rfl
  have hq0mem : q0 ∈ nl :=
    List.mem_map_of_mem (fun o => o.getD (-999)) ho0m
  have hq0le : q0 ≤ mv := hub q0 hq0mem
  have hmvge : (-1 : ℚ) ≤ mv := le_trans hq0b.1 hq0le
  have hgd : nl.getD (argmaxIdx nl) 0 = (cors.getD (argmaxIdx nl) none).getD (-999) :=
    nanToNum_getD hjc
  have hcj : cors.getD (argmaxIdx nl) none = some mv := by
    rcases hoj : cors.getD (argmaxIdx nl) none with _ | c
    · rw [hoj] at hgd
      rw [hval] at hgd
      norm_num at hgd
      rw [hgd] at hmvge
      norm_num at hmvge
    · rw [hoj] at hgd
      rw [hval] at hgd
      simp only [Option.getD_some] at hgd
      rw [hgd]
  have hmax : ∀ o ∈ cors, ∀ q : ℚ, o = some q → q ≤ mv := by
    intro o hom q hq
    subst hq
    exact hub q (List.mem_map_of_mem (fun o => o.getD (-999)) hom)
  have hfirst : ∀ i : ℕ, i < argmaxIdx nl → ∀ q : ℚ,
      cors.getD i none = some q → q < mv := by
    intro i hij q hq
    have hic : i < cors.length := by
      rw [← hnlen]
      exact lt_trans hij hjlt
    have hval' := hlt i hij
    rw [nanToNum_getD hic, hq] at hval'
    simpa using hval'
  have hbl : best_lag m dm ch d0 d1 L = (lagList L).getD (argmaxIdx nl) 0 := rfl
  have hbl' : best_lag m dm ch d0 d1 L = (argmaxIdx nl : Int) - L := by
    rw [hbl, lagList_getD hjb]
  have hmc : max_corr m dm ch d0 d1 L = some mv := by
    show nanmax cors = some mv
    unfold nanmax
    apply lmax_eq_some
    · rw [List.mem_filterMap]
      refine ⟨some mv, ?_, rfl⟩
      have hge := List.getD_eq_getElem cors none hjc
      rw [hge] at hcj
      rw [← hcj]
      exact List.getElem_mem hjc
    · intro a ha
      rw [List.mem_filterMap] at ha
      obtain ⟨o, hom, hoa⟩ := ha
      exact hmax o hom a hoa
  refine ⟨argmaxIdx nl, mv, hjb, hbl', ?_, ?_, hcj, hmax, hfirst, hmc⟩
  · rw [hbl']
    omega
  · rw [hbl']
    omega

/-- **C1 witness**: the best-lag search instantiated on a channel whose
spend and orders series both have nonzero variance at lag `0`. -/
theorem lag_best_defined_witness :
    (1 ≤ 30 ∧ (∃ o ∈ corsOf mkt1 biz1 "a" 0 2 1, o ≠ none)) ∧
    (∃ (j : ℕ) (c : ℚ),
      j < 2 * 1 + 1 ∧
      best_lag mkt1 biz1 "a" 0 2 1 = (j : Int) - 1 ∧
      -(1 : Int) ≤ best_lag mkt1 biz1 "a" 0 2 1 ∧
      best_lag mkt1 biz1 "a" 0 2 1 ≤ (1 : Int) ∧
      (corsOf mkt1 biz1 "a" 0 2 1).getD j none = some c ∧
      (∀ o ∈ corsOf mkt1 biz1 "a" 0 2 1, ∀ q : ℚ, o = some q → q ≤ c) ∧
      (∀ i : ℕ, i < j → ∀ q : ℚ,
        (corsOf mkt1 biz1 "a" 0 2 1).getD i none = some q → q < c) ∧
      max_corr mkt1 biz1 "a" 0 2 1 = some c) :=
  ⟨⟨by decide, by with_unfolding_all decide⟩,
    lag_best_defined mkt1 biz1 "a" 0 2 1 (by decide)
      (by with_unfolding_all decide)⟩

end MarketingDashboard
